import Mathlib

set_option autoImplicit false

/-
Verification of the custom-metadata core of uplink-rust
(src/uplink/src/metadata.rs).

Modelling choices:
* A Rust `str` / `Box<str>` is modelled by its byte sequence `Bytes`
  (`List Nat`), so embedded zero bytes are first-class.
* A raw C pointer into string memory is modelled by the list of bytes
  readable at that pointer; a possibly-null pointer to a record array is
  modelled by an `Option` of the readable record list.
* `HashMap<Box<str>, Box<str>>` is modelled by its extensional view: an
  entry list with unique keys (`Custom.WF`), with insert / remove / get
  acting as map operations on that view.
* Methods that mutate `self` (insert, delete, to_uplink_c) return the
  updated store alongside their Rust return value.
-/

namespace UplinkRust

/-- Byte strings: the model of Rust string data and of the memory readable
at a raw C string pointer. -/
abbrev Bytes := List Nat

namespace MapModel

/-- First-match lookup in an entry list: the extensional view of
`HashMap::get`. -/
def lookupA (k : Bytes) : List (Bytes × Bytes) → Option Bytes
  | [] => none
  | e :: t => if e.1 = k then some e.2 else lookupA k t

/-- Key membership in an entry list: the extensional view of
`HashMap::contains_key`, and of the `is_some` results of the map insert
and remove operations. -/
def containsA (k : Bytes) : List (Bytes × Bytes) → Bool
  | [] => false
  | e :: t => e.1 = k || containsA k t

/-- Upsert in an entry list: the extensional view of `HashMap::insert`.
The entry holding the key is replaced when present, otherwise the new
entry is added. -/
def insertA (k v : Bytes) : List (Bytes × Bytes) → List (Bytes × Bytes)
  | [] => [(k, v)]
  | e :: t => if e.1 = k then (k, v) :: t else e :: insertA k v t

/-- Removal from an entry list: the extensional view of
`HashMap::remove`. -/
def eraseA (k : Bytes) : List (Bytes × Bytes) → List (Bytes × Bytes)
  | [] => []
  | e :: t => if e.1 = k then t else e :: eraseA k t

/-- The keys of an entry list. -/
def keysOf (m : List (Bytes × Bytes)) : List Bytes := m.map Prod.fst

/-- Key uniqueness, the invariant a hash map maintains on its entry set. -/
def NodupKeys (m : List (Bytes × Bytes)) : Prop := (keysOf m).Nodup

instance (m : List (Bytes × Bytes)) : Decidable (NodupKeys m) := by
  unfold NodupKeys; infer_instance

end MapModel

/-- Model of `uplink_sys::UplinkCustomMetadataEntry`: the key and value
pointers are modelled by the byte buffers readable at them, and the
explicit length fields are kept separate, as in the C struct.  The
buffers need not be NUL-terminated and may contain zero bytes. -/
structure UplinkCustomMetadataEntry where
  key : Bytes
  key_length : Nat
  value : Bytes
  value_length : Nat
deriving DecidableEq, Inhabited

/-- Model of `uplink_sys::UplinkCustomMetadata`: a record count plus the
entries pointer.  `none` models a null pointer, `some l` a pointer at
which the record list `l` is readable. -/
structure UplinkCustomMetadata where
  entries : Option (List UplinkCustomMetadataEntry)
  count : Nat
deriving DecidableEq, Inhabited

/-- Model of `UplinkCustomMetadataWrapper`: the descriptor together with
the allocated record array whose memory it guards. -/
structure UplinkCustomMetadataWrapper where
  custom_metadata : UplinkCustomMetadata
  entries : List UplinkCustomMetadataEntry
deriving DecidableEq, Inhabited

/-- Model of `Custom`: `entries` is the extensional view of the
`HashMap<Box<str>, Box<str>>` field and `inner` is the cached c-bindings
representation. -/
structure Custom where
  entries : List (Bytes × Bytes)
  inner : Option UplinkCustomMetadataWrapper
deriving DecidableEq, Inhabited

/-- Model of the derived `<Custom as Default>::default()`: empty map and
no cache. -/
def Custom.mkDefault : Custom := { entries := [], inner := none }

/-- Model of `Custom::with_entries`: insert every given pair into a fresh
map, so a later pair wins on a repeated key. -/
def Custom.with_entries (entries : List (Bytes × Bytes)) : Custom :=
  { entries := entries.foldl (fun m e => MapModel.insertA e.1 e.2 m) []
    inner := none }

/-- Model of `Custom::count`. -/
def Custom.count (c : Custom) : Nat := c.entries.length

/-- Model of `Custom::get`. -/
def Custom.get (c : Custom) (key : Bytes) : Option Bytes :=
  MapModel.lookupA key c.entries

/-- Model of `Custom::insert`: the cache is set to `None`, the pair is
upserted, and the returned Bool tells whether the key was already
present. -/
def Custom.insert (c : Custom) (key value : Bytes) : Bool × Custom :=
  (MapModel.containsA key c.entries,
   { entries := MapModel.insertA key value c.entries, inner := none })

/-- Model of `Custom::iter`: the sequence of key-value pairs. -/
def Custom.iter (c : Custom) : List (Bytes × Bytes) := c.entries

/-- Model of `Custom::delete`: the cache is set to `None`, the entry is
removed when present, and the returned Bool tells whether it existed. -/
def Custom.delete (c : Custom) (key : Bytes) : Bool × Custom :=
  (MapModel.containsA key c.entries,
   { entries := MapModel.eraseA key c.entries, inner := none })

/-- Model of `<Custom as Clone>::clone`: a deep copy of the entries, with
the cache of the new instance set to `None`. -/
def Custom.clone (c : Custom) : Custom := { entries := c.entries, inner := none }

/-- Model of `<UplinkCustomMetadataWrapper as Default>::default()`: a
null entries pointer and count zero. -/
def UplinkCustomMetadataWrapper.mkDefault : UplinkCustomMetadataWrapper :=
  { custom_metadata := { entries := none, count := 0 }, entries := [] }

/-- The record the export path builds for one entry: pointer plus length
for the key and for the value, the pointers aiming into the byte buffers
owned by the store. -/
def entryRecord (e : Bytes × Bytes) : UplinkCustomMetadataEntry :=
  { key := e.1, key_length := e.1.length, value := e.2, value_length := e.2.length }

/-- Model of `UplinkCustomMetadataWrapper::from_custom`: the default
wrapper for an empty store, otherwise one record per current entry. -/
def UplinkCustomMetadataWrapper.from_custom (custom : Custom) :
    UplinkCustomMetadataWrapper :=
  if custom.count = 0 then UplinkCustomMetadataWrapper.mkDefault
  else
    let entries := custom.iter.map entryRecord
    { custom_metadata := { entries := some entries, count := entries.length }
      entries := entries }

/-- The store invariant maintained by every operation of the public API:
the extensional entry list of the hash map has unique keys, and the
cache, when present, is the wrapper built from the current entries (it is
only ever populated by `to_uplink_c` and discarded by every mutation). -/
def Custom.WF (c : Custom) : Prop :=
  MapModel.NodupKeys c.entries ∧
  (c.inner = none ∨ c.inner = some (UplinkCustomMetadataWrapper.from_custom c))

instance (c : Custom) : Decidable c.WF := by
  unfold Custom.WF MapModel.NodupKeys; infer_instance

/-- Model of `Custom::to_uplink_c`: when the cache is `None`, build the
wrapper and store it in the cache; then return the cached descriptor.
The updated store is returned alongside, since the Rust method mutates
`self`. -/
def Custom.to_uplink_c (c : Custom) : UplinkCustomMetadata × Custom :=
  match c.inner with
  | some w => (w.custom_metadata, c)
  | none =>
    let w := UplinkCustomMetadataWrapper.from_custom c
    (w.custom_metadata, { c with inner := some w })

/-- Modelled from the spec: `crate::helpers::unchecked_ptr_c_char_and_length_to_str`
is not among the given sources.  Per the decoding rule of the spec, the
string is copied out of foreign memory using its explicit length, never
by scanning for a terminator, into freshly owned memory. -/
def unchecked_ptr_c_char_and_length_to_str (p : Bytes) (length : Nat) : Bytes :=
  p.take length

/-- Modelled from the spec: the error type of the crate-wide fallible
result type is not among the given sources; the import path never
produces it. -/
inductive Error where
  | internal
deriving DecidableEq

/-- Model of the crate-wide `Result<T>` type. -/
abbrev CrateResult (α : Type) := Except Error α

/-- The key-value pair the import path reads out of one record. -/
def decodeEntry (e : UplinkCustomMetadataEntry) : Bytes × Bytes :=
  (unchecked_ptr_c_char_and_length_to_str e.key e.key_length,
   unchecked_ptr_c_char_and_length_to_str e.value e.value_length)

/-- Model of `Custom::from_uplink_c`: a count of zero yields the default
store without reading the entries pointer; otherwise each of the `count`
records is decoded with the explicit-length copy and inserted into a
fresh map.  The source trusts the pointer and the count, so the `getD`
defaults stand in for what is undefined behaviour in the source (a null
or too-short record array). -/
def Custom.from_uplink_c (uc : UplinkCustomMetadata) : CrateResult Custom :=
  if uc.count = 0 then .ok Custom.mkDefault
  else
    let l := uc.entries.getD []
    let entries := (List.range uc.count).foldl
      (fun m i =>
        let e := l.getD i default
        MapModel.insertA (decodeEntry e).1 (decodeEntry e).2 m)
      []
    .ok { entries := entries, inner := none }

/-- Well-formedness of a trusted descriptor: the count is zero, or the
records pointer is non-null and at least `count` records are readable at
it. -/
def UplinkCustomMetadata.WFDesc (uc : UplinkCustomMetadata) : Prop :=
  uc.count = 0 ∨ (uc.entries.isSome = true ∧ uc.count ≤ (uc.entries.getD []).length)

instance (uc : UplinkCustomMetadata) : Decidable uc.WFDesc := by
  unfold UplinkCustomMetadata.WFDesc; infer_instance

/-- A descriptor lists exactly the records of the current entry set of a
store: correct count, and one record per entry drawn from the buffers of
the store (a null records pointer when the store is empty). -/
def DescribesStore (uc : UplinkCustomMetadata) (c : Custom) : Prop :=
  uc.count = c.count ∧
  uc.entries = if c.count = 0 then none else some (c.entries.map entryRecord)

/-- A mutation of a store: one of the two mutating operations of the
public API. -/
inductive Op where
  | ins (key value : Bytes)
  | del (key : Bytes)

/-- Apply one mutation to a store, keeping the updated store. -/
def applyOp (c : Custom) : Op → Custom
  | .ins k v => (c.insert k v).2
  | .del k => (c.delete k).2

/-- A heap of stores addressed by handles, used to state clone
independence: cloning allocates a fresh handle holding the deep copy, so
any sharing between clone and source would be observable. -/
structure Heap where
  stores : List Custom

/-- The store held at a handle. -/
def Heap.getStore (h : Heap) (i : Nat) : Custom :=
  h.stores.getD i Custom.mkDefault

/-- Clone the store at handle `i` into a fresh handle (the next unused
index). -/
def Heap.cloneAt (h : Heap) (i : Nat) : Heap :=
  { stores := h.stores ++ [Custom.clone (h.getStore i)] }

/-- Apply one mutation to the store at a handle. -/
def Heap.applyAt (h : Heap) (i : Nat) (op : Op) : Heap :=
  { stores := h.stores.set i (applyOp (h.getStore i) op) }

/-- Apply a sequence of handle-addressed mutations. -/
def Heap.applyOps (h : Heap) : List (Nat × Op) → Heap
  | [] => h
  | p :: t => (h.applyAt p.1 p.2).applyOps t

namespace MapModel

/-- Left-biased choice on optional values, used to state lookup over
appended entry lists. -/
def orO (a b : Option Bytes) : Option Bytes :=
  match a with
  | some v => some v
  | none => b

theorem orO_none_left (b : Option Bytes) : orO none b = b := rfl

theorem orO_none_right (a : Option Bytes) : orO a none = a := by
  cases a <;> rfl

theorem orO_assoc (a b c : Option Bytes) : orO (orO a b) c = orO a (orO b c) := by
  cases a <;> rfl

theorem keysOf_nil : keysOf [] = [] := rfl

theorem keysOf_cons (e : Bytes × Bytes) (t : List (Bytes × Bytes)) :
    keysOf (e :: t) = e.1 :: keysOf t := rfl

theorem keysOf_append (a b : List (Bytes × Bytes)) :
    keysOf (a ++ b) = keysOf a ++ keysOf b := by
  simp [keysOf]

theorem lookupA_insertA (k' k v : Bytes) (m : List (Bytes × Bytes)) :
    lookupA k' (insertA k v m) = if k' = k then some v else lookupA k' m := by
  induction m with
  | nil =>
    by_cases h : k' = k
    · simp [insertA, lookupA, h]
    · have h2 : ¬(k = k') := fun hh => h hh.symm
      simp [insertA, lookupA, h, h2]
  | cons e t ih =>
    by_cases h1 : e.1 = k
    · subst h1
      by_cases h2 : k' = e.1
      · simp [insertA, lookupA, h2]
      · have h3 : ¬(e.1 = k') := fun hh => h2 hh.symm
        simp [insertA, lookupA, h2, h3]
    · by_cases h2 : e.1 = k'
      · have h3 : ¬(k' = k) := fun hh => h1 (h2.trans hh)
        simp [insertA, lookupA, h1, h2, h3]
      · simp [insertA, lookupA, h1, h2, ih]

theorem containsA_eq_isSome (k : Bytes) (m : List (Bytes × Bytes)) :
    containsA k m = (lookupA k m).isSome := by
  induction m with
  | nil => rfl
  | cons e t ih => by_cases h : e.1 = k <;> simp [containsA, lookupA, h, ih]

theorem containsA_iff_mem_keys (k : Bytes) (m : List (Bytes × Bytes)) :
    containsA k m = true ↔ k ∈ keysOf m := by
  induction m with
  | nil => simp [containsA, keysOf]
  | cons e t ih =>
    by_cases h : e.1 = k
    · simp [containsA, keysOf_cons, h]
    · have h2 : ¬(k = e.1) := fun hh => h hh.symm
      simp [containsA, keysOf_cons, h, h2, ih]

theorem length_insertA (k v : Bytes) (m : List (Bytes × Bytes)) :
    (insertA k v m).length = if containsA k m then m.length else m.length + 1 := by
  induction m with
  | nil => simp [insertA, containsA]
  | cons e t ih =>
    by_cases h : e.1 = k <;> by_cases hc : containsA k t <;>
      simp [insertA, containsA, h, hc, ih]

theorem eraseA_of_not_contains (k : Bytes) (m : List (Bytes × Bytes))
    (h : containsA k m = false) : eraseA k m = m := by
  induction m with
  | nil => rfl
  | cons e t ih =>
    simp only [containsA, Bool.or_eq_false_iff] at h
    have h1 : ¬(e.1 = k) := by simpa using h.1
    simp [eraseA, h1, ih h.2]

theorem length_eraseA_of_contains (k : Bytes) (m : List (Bytes × Bytes))
    (h : containsA k m = true) : (eraseA k m).length + 1 = m.length := by
  induction m with
  | nil => simp [containsA] at h
  | cons e t ih =>
    by_cases h1 : e.1 = k
    · simp [eraseA, h1]
    · simp only [containsA, Bool.or_eq_true] at h
      have h2 : containsA k t = true := by
        rcases h with h | h
        · exact absurd (by simpa using h) h1
        · exact h
      simp [eraseA, h1, List.length_cons, ih h2]

theorem lookupA_eq_none_of_not_mem (k : Bytes) (m : List (Bytes × Bytes))
    (h : k ∉ keysOf m) : lookupA k m = none := by
  induction m with
  | nil => rfl
  | cons e t ih =>
    rw [keysOf_cons, List.mem_cons] at h
    push_neg at h
    have h1 : ¬(e.1 = k) := fun hh => h.1 hh.symm
    simp [lookupA, h1, ih h.2]

theorem lookupA_eraseA_self (k : Bytes) (m : List (Bytes × Bytes))
    (h : NodupKeys m) : lookupA k (eraseA k m) = none := by
  induction m with
  | nil => rfl
  | cons e t ih =>
    rw [NodupKeys, keysOf_cons, List.nodup_cons] at h
    by_cases h1 : e.1 = k
    · simp only [eraseA, h1, if_true]
      exact lookupA_eq_none_of_not_mem k t (h1 ▸ h.1)
    · have hstep : eraseA k (e :: t) = e :: eraseA k t := by simp [eraseA, h1]
      rw [hstep]
      simpa [lookupA, h1] using ih h.2

theorem mem_keys_insertA (k' k v : Bytes) (m : List (Bytes × Bytes)) :
    k' ∈ keysOf (insertA k v m) ↔ k' = k ∨ k' ∈ keysOf m := by
  induction m with
  | nil => simp [insertA, keysOf]
  | cons e t ih =>
    by_cases h : e.1 = k
    · have hstep : insertA k v (e :: t) = (k, v) :: t := by simp [insertA, h]
      rw [hstep, keysOf_cons, keysOf_cons, List.mem_cons, List.mem_cons, ← h]
      tauto
    · have hstep : insertA k v (e :: t) = e :: insertA k v t := by simp [insertA, h]
      rw [hstep, keysOf_cons, keysOf_cons, List.mem_cons, List.mem_cons, ih]
      tauto

theorem nodup_insertA (k v : Bytes) (m : List (Bytes × Bytes))
    (h : NodupKeys m) : NodupKeys (insertA k v m) := by
  induction m with
  | nil => simp [insertA, NodupKeys, keysOf]
  | cons e t ih =>
    rw [NodupKeys, keysOf_cons, List.nodup_cons] at h
    by_cases h1 : e.1 = k
    · have hstep : insertA k v (e :: t) = (k, v) :: t := by simp [insertA, h1]
      rw [hstep, NodupKeys, keysOf_cons, List.nodup_cons]
      exact ⟨h1 ▸ h.1, h.2⟩
    · have hstep : insertA k v (e :: t) = e :: insertA k v t := by simp [insertA, h1]
      have hnot : e.1 ∉ keysOf (insertA k v t) := by
        rw [mem_keys_insertA]
        push_neg
        exact ⟨h1, h.1⟩
      rw [hstep, NodupKeys, keysOf_cons, List.nodup_cons]
      exact ⟨hnot, ih h.2⟩

theorem insertA_eq_append (k v : Bytes) (m : List (Bytes × Bytes))
    (h : containsA k m = false) : insertA k v m = m ++ [(k, v)] := by
  induction m with
  | nil => rfl
  | cons e t ih =>
    simp only [containsA, Bool.or_eq_false_iff] at h
    have h1 : ¬(e.1 = k) := by simpa using h.1
    simp [insertA, h1, ih h.2]

theorem lookupA_append (k : Bytes) (a b : List (Bytes × Bytes)) :
    lookupA k (a ++ b) = orO (lookupA k a) (lookupA k b) := by
  induction a with
  | nil => simp [lookupA, orO_none_left]
  | cons e t ih =>
    by_cases h : e.1 = k <;> simp [lookupA, h, ih, orO]

theorem lookupA_of_mem_nodup (k v : Bytes) (m : List (Bytes × Bytes))
    (hnd : NodupKeys m) (hmem : (k, v) ∈ m) : lookupA k m = some v := by
  induction m with
  | nil => simp at hmem
  | cons e t ih =>
    rw [NodupKeys, keysOf_cons, List.nodup_cons] at hnd
    rcases List.mem_cons.mp hmem with h | h
    · rw [← h]
      simp [lookupA]
    · have hk : k ∈ keysOf t := List.mem_map_of_mem Prod.fst h
      have hne : ¬(e.1 = k) := fun hh => hnd.1 (hh ▸ hk)
      simpa [lookupA, hne] using ih hnd.2 h

theorem foldl_insertA_of_nodup :
    ∀ (l m : List (Bytes × Bytes)), NodupKeys (m ++ l) →
      l.foldl (fun m e => insertA e.1 e.2 m) m = m ++ l := by
  intro l
  induction l with
  | nil =>
    intro m _
    simp
  | cons p t ih =>
    intro m h
    have hkeys : keysOf (m ++ p :: t) = keysOf m ++ p.1 :: keysOf t := by
      rw [keysOf_append, keysOf_cons]
    rw [NodupKeys, hkeys, List.nodup_append] at h
    have hnm : p.1 ∉ keysOf m := fun hm => h.2.2 hm (List.mem_cons_self p.1 (keysOf t))
    have hcont : containsA p.1 m = false := by
      have hne : ¬(containsA p.1 m = true) := fun hc => hnm ((containsA_iff_mem_keys p.1 m).mp hc)
      simpa using hne
    have hnd2 : NodupKeys ((m ++ [p]) ++ t) := by
      rw [← List.append_cons, NodupKeys, hkeys, List.nodup_append]
      exact h
    rw [List.foldl_cons, insertA_eq_append p.1 p.2 m hcont]
    have hp : (m ++ [(p.1, p.2)]) = m ++ [p] := by simp
    rw [hp, ih (m ++ [p]) hnd2, ← List.append_cons]

theorem lookupA_foldl_insertA :
    ∀ (l m : List (Bytes × Bytes)) (k : Bytes),
      lookupA k (l.foldl (fun m e => insertA e.1 e.2 m) m) =
        orO (lookupA k l.reverse) (lookupA k m) := by
  intro l
  induction l with
  | nil =>
    intro m k
    simp [lookupA, orO_none_left]
  | cons p t ih =>
    intro m k
    rw [List.foldl_cons, ih, List.reverse_cons, lookupA_append, orO_assoc]
    congr 1
    rw [lookupA_insertA]
    by_cases h : k = p.1
    · simp [lookupA, orO, h]
    · have h2 : ¬(p.1 = k) := fun hh => h hh.symm
      simp [lookupA, orO, h, h2]

theorem mem_keys_foldl_insertA :
    ∀ (l m : List (Bytes × Bytes)) (k : Bytes),
      k ∈ keysOf (l.foldl (fun m e => insertA e.1 e.2 m) m) ↔
        k ∈ keysOf m ∨ k ∈ keysOf l := by
  intro l
  induction l with
  | nil =>
    intro m k
    simp [keysOf]
  | cons p t ih =>
    intro m k
    rw [List.foldl_cons, ih, mem_keys_insertA, keysOf_cons, List.mem_cons]
    tauto

theorem nodup_foldl_insertA :
    ∀ (l m : List (Bytes × Bytes)), NodupKeys m →
      NodupKeys (l.foldl (fun m e => insertA e.1 e.2 m) m) := by
  intro l
  induction l with
  | nil => intro m h; exact h
  | cons p t ih => intro m h; exact ih _ (nodup_insertA _ _ _ h)

theorem length_eq_card_keys (m : List (Bytes × Bytes)) (h : NodupKeys m) :
    m.length = (keysOf m).toFinset.card := by
  rw [List.toFinset_card_of_nodup h]
  simp [keysOf]

theorem keys_foldl_toFinset (l m : List (Bytes × Bytes)) :
    (keysOf (l.foldl (fun m e => insertA e.1 e.2 m) m)).toFinset =
      (keysOf m).toFinset ∪ (keysOf l).toFinset := by
  ext k
  simp [List.mem_toFinset, mem_keys_foldl_insertA]

end MapModel

/-- Reading every position of a list through `getD` reproduces the list. -/
theorem range_map_getD {α : Type} (l : List α) (d : α) :
    (List.range l.length).map (fun i => l.getD i d) = l := by
  apply List.ext_getElem
  · simp
  · intro i h1 h2
    simp [List.getD_eq_getElem?_getD, List.getElem?_eq_getElem h2]

/-- A fold over index range plus `getD` is a fold over the list itself. -/
theorem range_foldl_getD {α β : Type} (l : List α) (f : β → α → β) (init : β) (d : α) :
    (List.range l.length).foldl (fun m i => f m (l.getD i d)) init = l.foldl f init := by
  conv_rhs => rw [← range_map_getD l d]
  rw [List.foldl_map]

/-- Under the store invariant, the exported descriptor is the one of the
wrapper built from the current entries, whether it was cached or built by
the call. -/
theorem to_uplink_c_fst (c : Custom) (h : c.WF) :
    (c.to_uplink_c).1 = (UplinkCustomMetadataWrapper.from_custom c).custom_metadata := by
  rcases h.2 with h2 | h2 <;> simp [Custom.to_uplink_c, h2]

/-- Decoding the record built for an entry gives back the entry: the
explicit lengths are the exact buffer lengths. -/
theorem decode_entryRecord (e : Bytes × Bytes) : decodeEntry (entryRecord e) = e := by
  simp [decodeEntry, entryRecord, unchecked_ptr_c_char_and_length_to_str]

theorem map_decode_entryRecord (l : List (Bytes × Bytes)) :
    (l.map entryRecord).map decodeEntry = l := by
  induction l with
  | nil => rfl
  | cons e t ih => simp [decode_entryRecord, ih]

/-- Import of an exact non-empty descriptor: every record is decoded and
inserted in order. -/
theorem from_uplink_c_cons (l : List UplinkCustomMetadataEntry) (hne : l ≠ []) :
    Custom.from_uplink_c { entries := some l, count := l.length } =
      .ok { entries := (l.map decodeEntry).foldl (fun m p => MapModel.insertA p.1 p.2 m) []
            inner := none } := by
  have hlen : l.length ≠ 0 := by simpa [List.length_eq_zero] using hne
  unfold Custom.from_uplink_c
  rw [if_neg hlen]
  have hfold :
      (List.range l.length).foldl
        (fun m i =>
          MapModel.insertA (decodeEntry (l.getD i default)).1
            (decodeEntry (l.getD i default)).2 m) [] =
        (l.map decodeEntry).foldl (fun m p => MapModel.insertA p.1 p.2 m) [] := by
    rw [List.foldl_map,
      range_foldl_getD l
        (fun m e => MapModel.insertA (decodeEntry e).1 (decodeEntry e).2 m) [] default]
  simp only [Option.getD_some]
  rw [hfold]

/-- Round trip under the store invariant: importing the exported
descriptor rebuilds exactly the entry list of the store, with no cache. -/
theorem roundtrip_exact (c : Custom) (h : c.WF) :
    Custom.from_uplink_c (c.to_uplink_c).1 = .ok (Custom.clone c) := by
  rw [to_uplink_c_fst c h]
  by_cases hc : c.count = 0
  · have hent : c.entries = [] := List.length_eq_zero.mp hc
    rw [UplinkCustomMetadataWrapper.from_custom, if_pos hc]
    simp [Custom.from_uplink_c, UplinkCustomMetadataWrapper.mkDefault, Custom.mkDefault,
      Custom.clone, hent]
  · have hne : c.entries.map entryRecord ≠ [] := by
      intro hnil
      exact hc (by simpa [Custom.count, List.length_eq_zero, List.map_eq_nil_iff] using hnil)
    rw [UplinkCustomMetadataWrapper.from_custom, if_neg hc]
    show Custom.from_uplink_c
        { entries := some (c.entries.map entryRecord)
          count := (c.entries.map entryRecord).length } = Except.ok c.clone
    rw [from_uplink_c_cons (c.entries.map entryRecord) hne]
    rw [map_decode_entryRecord]
    rw [MapModel.foldl_insertA_of_nodup c.entries [] (by simpa using h.1)]
    simp [Custom.clone]

/-- Reading just past the end of a list extended by one element gives the
new element. -/
theorem getD_concat_self {α : Type} (l : List α) (a d : α) :
    (l ++ [a]).getD l.length d = a := by
  induction l with
  | nil => rfl
  | cons x t ih =>
    simp [List.getD_eq_getElem?_getD, List.getElem?_cons_succ]

/-- Reading inside the original part of an extended list is unchanged. -/
theorem getD_append_left {α : Type} (l1 l2 : List α) (i : Nat) (d : α)
    (h : i < l1.length) : (l1 ++ l2).getD i d = l1.getD i d := by
  rw [List.getD_eq_getElem?_getD, List.getD_eq_getElem?_getD,
    List.getElem?_append_left h]

/-- Writing one position of a list leaves every other position unchanged. -/
theorem getD_set_ne {α : Type} (l : List α) (i j : Nat) (a d : α)
    (h : i ≠ j) : (l.set i a).getD j d = l.getD j d := by
  rw [List.getD_eq_getElem?_getD, List.getD_eq_getElem?_getD,
    List.getElem?_set_ne h]

theorem getStore_applyAt_ne (h : Heap) (i j : Nat) (op : Op) (hne : i ≠ j) :
    (h.applyAt i op).getStore j = h.getStore j := by
  unfold Heap.applyAt Heap.getStore
  exact getD_set_ne h.stores i j _ _ hne

theorem getStore_applyOps_ne :
    ∀ (ops : List (Nat × Op)) (h : Heap) (j : Nat),
      (∀ p ∈ ops, p.1 ≠ j) → (h.applyOps ops).getStore j = h.getStore j := by
  intro ops
  induction ops with
  | nil =>
    intro h j _
    rfl
  | cons p t ih =>
    intro h j hall
    have h1 : p.1 ≠ j := hall p (List.mem_cons_self p t)
    have h2 : ∀ q ∈ t, q.1 ≠ j := fun q hq => hall q (List.mem_cons_of_mem p hq)
    show ((h.applyAt p.1 p.2).applyOps t).getStore j = h.getStore j
    rw [ih _ j h2, getStore_applyAt_ne _ _ _ _ h1]

theorem getStore_cloneAt_new (h : Heap) (i : Nat) :
    (h.cloneAt i).getStore h.stores.length = Custom.clone (h.getStore i) := by
  unfold Heap.cloneAt Heap.getStore
  exact getD_concat_self h.stores _ _

theorem getStore_cloneAt_old (h : Heap) (i j : Nat) (hj : j < h.stores.length) :
    (h.cloneAt i).getStore j = h.getStore j := by
  unfold Heap.cloneAt Heap.getStore
  exact getD_append_left h.stores _ j _ hj

/-- The descriptor built by the export builder lists exactly the current
entries of the store. -/
theorem describes_from_custom (c : Custom) :
    DescribesStore (UplinkCustomMetadataWrapper.from_custom c).custom_metadata c := by
  unfold DescribesStore UplinkCustomMetadataWrapper.from_custom
  by_cases hc : c.count = 0
  · simp [hc, UplinkCustomMetadataWrapper.mkDefault]
  · have hne : ¬(c.entries = []) := fun hnil => hc (by simp [Custom.count, hnil])
    simp [hc, hne, Custom.iter, Custom.count]

/-- C1: for every store satisfying the store invariant, importing the
descriptor produced by exporting it succeeds and yields a store whose
set of key-value pairs is identical to the original one, with every
lookup agreeing - so the result does not depend on the order in which
the original store was built, only on its entry set. -/
theorem export_import_roundtrip (c : Custom) (h : c.WF) :
    ∃ c2, Custom.from_uplink_c (c.to_uplink_c).1 = .ok c2 ∧
      (∀ k v, ((k, v) ∈ c2.entries ↔ (k, v) ∈ c.entries)) ∧
      (∀ k, c2.get k = c.get k) := by
  refine ⟨Custom.clone c, roundtrip_exact c h, ?_, ?_⟩
  · intro k v
    exact Iff.rfl
  · intro k
    rfl

/-- C1 witness: the round trip at a concrete two-entry store preserves
both lookups. -/
theorem export_import_roundtrip_witness :
    Custom.WF (Custom.with_entries [([1], [10]), ([2], [20])]) ∧
    (Custom.from_uplink_c
        ((Custom.with_entries [([1], [10]), ([2], [20])]).to_uplink_c).1).toOption.map
      (fun c2 => (c2.get [1], c2.get [2])) = some (some [10], some [20]) := by
  constructor
  · decide
  · obtain ⟨c2, hok, hmem, hget⟩ :=
      export_import_roundtrip (Custom.with_entries [([1], [10]), ([2], [20])]) (by decide)
    rw [hok]
    show some (c2.get [1], c2.get [2]) = some (some [10], some [20])
    rw [hget [1], hget [2]]
    decide

/-- C2: every insert and delete unconditionally discards the export
cache, even when the mutation is a logical no-op; the cache is absent at
store creation (default construction and with_entries) and after clone;
and it is present right after an export. -/
theorem cache_invalidation (c : Custom) (k v : Bytes) (l : List (Bytes × Bytes)) :
    (c.insert k v).2.inner = none ∧
    (c.delete k).2.inner = none ∧
    (Custom.with_entries l).inner = none ∧
    Custom.mkDefault.inner = none ∧
    (Custom.clone c).inner = none ∧
    ((c.to_uplink_c).2.inner).isSome = true := by
  refine ⟨rfl, rfl, rfl, rfl, rfl, ?_⟩
  cases hc : c.inner <;> simp [Custom.to_uplink_c, hc]

/-- C3: two consecutive exports with no intervening mutation return the
cached descriptor unchanged with no rebuild (the store state is
unchanged and the returned descriptor is exactly the cached one), and an
insert or delete between two exports forces the second export to
describe exactly the new entry set of the store. -/
theorem export_cache_behavior (c : Custom) (k v : Bytes) :
    ((c.to_uplink_c).2.to_uplink_c).1 = (c.to_uplink_c).1 ∧
    ((c.to_uplink_c).2.to_uplink_c).2 = (c.to_uplink_c).2 ∧
    ((c.to_uplink_c).2.inner).map UplinkCustomMetadataWrapper.custom_metadata =
      some (c.to_uplink_c).1 ∧
    DescribesStore (((c.to_uplink_c).2.insert k v).2.to_uplink_c).1
      ((c.to_uplink_c).2.insert k v).2 ∧
    DescribesStore (((c.to_uplink_c).2.delete k).2.to_uplink_c).1
      ((c.to_uplink_c).2.delete k).2 := by
  refine ⟨?_, ?_, ?_, ?_, ?_⟩
  · cases hc : c.inner <;> simp [Custom.to_uplink_c, hc]
  · cases hc : c.inner <;> simp [Custom.to_uplink_c, hc]
  · cases hc : c.inner <;> simp [Custom.to_uplink_c, hc]
  · exact describes_from_custom _
  · exact describes_from_custom _

/-- C4: the import path copies keys and values by their explicit lengths,
so every binding - including a value containing an embedded zero byte -
round-trips through export and import byte-for-byte into the freshly
owned result store. -/
theorem import_embedded_nul_roundtrip (c : Custom) (h : c.WF) :
    ∃ c2, Custom.from_uplink_c (c.to_uplink_c).1 = .ok c2 ∧
      ∀ k v, c.get k = some v → c2.get k = some v := by
  exact ⟨Custom.clone c, roundtrip_exact c h, fun k v hv => hv⟩

/-- C4 witness: a value with an embedded zero byte survives the round
trip byte-for-byte. -/
theorem import_embedded_nul_roundtrip_witness :
    Custom.WF (Custom.with_entries [([107], [97, 0, 98])]) ∧
    (Custom.from_uplink_c
        ((Custom.with_entries [([107], [97, 0, 98])]).to_uplink_c).1).toOption.map
      (fun c2 => c2.get [107]) = some (some [97, 0, 98]) := by
  constructor
  · decide
  · obtain ⟨c2, hok, hpr⟩ :=
      import_embedded_nul_roundtrip (Custom.with_entries [([107], [97, 0, 98])]) (by decide)
    rw [hok]
    show some (c2.get [107]) = some (some [97, 0, 98])
    rw [hpr [107] [97, 0, 98] (by decide)]

/-- C5: insert upserts: the returned Bool is exactly the previous
presence of the key, the key then maps to the new value, and the count
is unchanged on replacement and incremented by one on fresh insertion. -/
theorem insert_upsert_spec (c : Custom) (k v : Bytes) :
    (c.insert k v).1 = (c.get k).isSome ∧
    (c.insert k v).2.get k = some v ∧
    (c.insert k v).2.count =
      (if (c.get k).isSome = true then c.count else c.count + 1) := by
  refine ⟨MapModel.containsA_eq_isSome k c.entries, ?_, ?_⟩
  · show MapModel.lookupA k (MapModel.insertA k v c.entries) = some v
    rw [MapModel.lookupA_insertA]
    simp
  · show (MapModel.insertA k v c.entries).length = _
    rw [MapModel.length_insertA, MapModel.containsA_eq_isSome]
    rfl

/-- C6: delete returns exactly the previous presence of the key; on a
present key the count drops by one and the key subsequently reads as
absent; on an absent key the count is unchanged; neither case is an
error. -/
theorem delete_spec (c : Custom) (k : Bytes) (h : c.WF) :
    (c.delete k).1 = (c.get k).isSome ∧
    (c.delete k).2.get k = none ∧
    (c.delete k).2.count =
      (if (c.get k).isSome = true then c.count - 1 else c.count) := by
  refine ⟨MapModel.containsA_eq_isSome k c.entries, ?_, ?_⟩
  · exact MapModel.lookupA_eraseA_self k c.entries h.1
  · have hcs : (c.get k).isSome = MapModel.containsA k c.entries :=
      (MapModel.containsA_eq_isSome k c.entries).symm
    show (MapModel.eraseA k c.entries).length = _
    by_cases hc : MapModel.containsA k c.entries = true
    · rw [if_pos (hcs.trans hc)]
      have := MapModel.length_eraseA_of_contains k c.entries hc
      show (MapModel.eraseA k c.entries).length = c.entries.length - 1
      omega
    · have hfalse : MapModel.containsA k c.entries = false := by simpa using hc
      rw [if_neg (by rw [hcs, hfalse]; exact Bool.false_ne_true)]
      rw [MapModel.eraseA_of_not_contains k c.entries hfalse]
      rfl

/-- C6 witness: deleting the present key of a two-entry store returns
true, drops the count to one, and the key then reads as absent. -/
theorem delete_spec_witness :
    Custom.WF (Custom.with_entries [([1], [10]), ([2], [20])]) ∧
    ((Custom.with_entries [([1], [10]), ([2], [20])]).delete [1]).1 = true ∧
    ((Custom.with_entries [([1], [10]), ([2], [20])]).delete [1]).2.get [1] = none ∧
    ((Custom.with_entries [([1], [10]), ([2], [20])]).delete [1]).2.count = 1 := by
  obtain ⟨h1, h2, h3⟩ :=
    delete_spec (Custom.with_entries [([1], [10]), ([2], [20])]) [1] (by decide)
  refine ⟨by decide, ?_, h2, ?_⟩
  · rw [h1]
    decide
  · rw [h3]
    decide

/-- C7: with_entries builds a store containing exactly the given pairs
with the later pair winning on a repeated key and no cache; for a list
with unique keys the count equals the list length, every listed pair is
found, and keys outside the list read as absent. -/
theorem with_entries_spec (l : List (Bytes × Bytes)) :
    (Custom.with_entries l).inner = none ∧
    (∀ k, (Custom.with_entries l).get k = MapModel.lookupA k l.reverse) ∧
    (MapModel.NodupKeys l →
      (Custom.with_entries l).count = l.length ∧
      (∀ k v, (k, v) ∈ l → (Custom.with_entries l).get k = some v) ∧
      (∀ k, k ∉ MapModel.keysOf l → (Custom.with_entries l).get k = none)) := by
  refine ⟨rfl, ?_, ?_⟩
  · intro k
    show MapModel.lookupA k (l.foldl (fun m e => MapModel.insertA e.1 e.2 m) []) = _
    rw [MapModel.lookupA_foldl_insertA]
    exact MapModel.orO_none_right _
  · intro hnd
    have hent : (Custom.with_entries l).entries = l := by
      show l.foldl (fun m e => MapModel.insertA e.1 e.2 m) [] = l
      have hfold := MapModel.foldl_insertA_of_nodup l [] (by simpa using hnd)
      simpa using hfold
    refine ⟨?_, ?_, ?_⟩
    · show (Custom.with_entries l).entries.length = l.length
      rw [hent]
    · intro k v hm
      show MapModel.lookupA k (Custom.with_entries l).entries = some v
      rw [hent]
      exact MapModel.lookupA_of_mem_nodup k v l hnd hm
    · intro k hk
      show MapModel.lookupA k (Custom.with_entries l).entries = none
      rw [hent]
      exact MapModel.lookupA_eq_none_of_not_mem k l hk

/-- C7 witness: with a repeated key the later pair wins, and on a
unique-key list the count is the length. -/
theorem with_entries_spec_witness :
    (Custom.with_entries [([1], [5]), ([1], [7])]).get [1] = some [7] ∧
    MapModel.NodupKeys [([1], [5]), ([2], [6])] ∧
    (Custom.with_entries [([1], [5]), ([2], [6])]).count = 2 := by
  refine ⟨?_, by decide, ?_⟩
  · rw [(with_entries_spec [([1], [5]), ([1], [7])]).2.1 [1]]
    decide
  · rw [((with_entries_spec [([1], [5]), ([2], [6])]).2.2 (by decide)).1]
    decide

/-- C8: clone produces an independent deep copy whose cache starts
empty: in a heap of stores, a cloned handle holds a copy of the source
entries with no cache, any sequence of mutations addressed to other
handles leaves the store observed at the cloned handle unchanged, and
mutations addressed to the clone leave the source handle unchanged. -/
theorem clone_independence (h : Heap) (i : Nat) (ops1 ops2 : List (Nat × Op))
    (hi : i < h.stores.length)
    (h1 : ∀ p ∈ ops1, p.1 ≠ h.stores.length)
    (h2 : ∀ p ∈ ops2, p.1 = h.stores.length) :
    ((h.cloneAt i).getStore h.stores.length).inner = none ∧
    ((h.cloneAt i).getStore h.stores.length).entries = (h.getStore i).entries ∧
    ((h.cloneAt i).applyOps ops1).getStore h.stores.length =
      (h.cloneAt i).getStore h.stores.length ∧
    ((h.cloneAt i).applyOps ops2).getStore i = (h.cloneAt i).getStore i := by
  refine ⟨?_, ?_, ?_, ?_⟩
  · rw [getStore_cloneAt_new]
    rfl
  · rw [getStore_cloneAt_new]
    rfl
  · exact getStore_applyOps_ne ops1 _ _ h1
  · refine getStore_applyOps_ne ops2 _ _ (fun p hp => ?_)
    rw [h2 p hp]
    exact Nat.ne_of_gt hi

/-- C8 witness: in a one-store heap, mutating the source after cloning
leaves the clone unchanged, and mutating the clone leaves the source
unchanged. -/
theorem clone_independence_witness :
    0 < (Heap.mk [{ entries := [([1], [10])], inner := none }]).stores.length ∧
    (((Heap.mk [{ entries := [([1], [10])], inner := none }]).cloneAt 0).getStore 1).inner
        = none ∧
    (((Heap.mk [{ entries := [([1], [10])], inner := none }]).cloneAt 0).getStore 1).entries
        = ((Heap.mk [{ entries := [([1], [10])], inner := none }]).getStore 0).entries ∧
    (((Heap.mk [{ entries := [([1], [10])], inner := none }]).cloneAt 0).applyOps
          [(0, Op.ins [2] [20]), (0, Op.del [1])]).getStore 1 =
      ((Heap.mk [{ entries := [([1], [10])], inner := none }]).cloneAt 0).getStore 1 ∧
    (((Heap.mk [{ entries := [([1], [10])], inner := none }]).cloneAt 0).applyOps
          [(1, Op.del [1])]).getStore 0 =
      ((Heap.mk [{ entries := [([1], [10])], inner := none }]).cloneAt 0).getStore 0 := by
  refine ⟨by decide, ?_⟩
  exact clone_independence (Heap.mk [{ entries := [([1], [10])], inner := none }]) 0
    [(0, Op.ins [2] [20]), (0, Op.del [1])] [(1, Op.del [1])]
    (by decide) (by decide) (by decide)

/-- C9: import never produces an error: every well-formed trusted
descriptor imports successfully, and a descriptor with count zero yields
the empty default store whatever its records pointer holds, including a
null pointer. -/
theorem import_never_errors :
    (∀ uc : UplinkCustomMetadata, uc.WFDesc →
      ∃ c, Custom.from_uplink_c uc = .ok c) ∧
    (∀ ents : Option (List UplinkCustomMetadataEntry),
      Custom.from_uplink_c { entries := ents, count := 0 } = .ok Custom.mkDefault) := by
  constructor
  · intro uc _
    unfold Custom.from_uplink_c
    by_cases hc : uc.count = 0
    · rw [if_pos hc]
      exact ⟨_, rfl⟩
    · rw [if_neg hc]
      exact ⟨_, rfl⟩
  · intro ents
    rfl

/-- C9 witness: a concrete well-formed one-record descriptor imports
successfully, and so does a zero-count descriptor with a null records
pointer. -/
theorem import_never_errors_witness :
    UplinkCustomMetadata.WFDesc { entries := some [⟨[1], 1, [2], 1⟩], count := 1 } ∧
    (Custom.from_uplink_c { entries := some [⟨[1], 1, [2], 1⟩], count := 1 }).isOk = true ∧
    Custom.from_uplink_c { entries := none, count := 0 } = .ok Custom.mkDefault := by
  refine ⟨by decide, ?_, import_never_errors.2 none⟩
  obtain ⟨c, hok⟩ :=
    import_never_errors.1 { entries := some [⟨[1], 1, [2], 1⟩], count := 1 } (by decide)
  rw [hok]
  rfl

/-- C10: importing a descriptor whose records repeat a key keeps the
value of the last record holding that key, and the resulting count is
the number of distinct keys among the decoded records, which is at most
the descriptor count. -/
theorem import_last_record_wins (l : List UplinkCustomMetadataEntry) (hne : l ≠ []) :
    ∃ c, Custom.from_uplink_c { entries := some l, count := l.length } = .ok c ∧
      (∀ k, c.get k = MapModel.lookupA k (l.map decodeEntry).reverse) ∧
      c.count = (MapModel.keysOf (l.map decodeEntry)).toFinset.card ∧
      c.count ≤ l.length := by
  refine ⟨_, from_uplink_c_cons l hne, ?_, ?_, ?_⟩
  · intro k
    show MapModel.lookupA k
      ((l.map decodeEntry).foldl (fun m p => MapModel.insertA p.1 p.2 m) []) = _
    rw [MapModel.lookupA_foldl_insertA]
    exact MapModel.orO_none_right _
  · show ((l.map decodeEntry).foldl (fun m p => MapModel.insertA p.1 p.2 m) []).length = _
    have hnd := MapModel.nodup_foldl_insertA (l.map decodeEntry) []
      (by simp [MapModel.NodupKeys, MapModel.keysOf])
    rw [MapModel.length_eq_card_keys _ hnd, MapModel.keys_foldl_toFinset]
    simp [MapModel.keysOf]
  · show ((l.map decodeEntry).foldl (fun m p => MapModel.insertA p.1 p.2 m) []).length ≤ _
    have hnd := MapModel.nodup_foldl_insertA (l.map decodeEntry) []
      (by simp [MapModel.NodupKeys, MapModel.keysOf])
    rw [MapModel.length_eq_card_keys _ hnd, MapModel.keys_foldl_toFinset]
    calc ((MapModel.keysOf ([] : List (Bytes × Bytes))).toFinset ∪
            (MapModel.keysOf (l.map decodeEntry)).toFinset).card
        ≤ (MapModel.keysOf (l.map decodeEntry)).toFinset.card := by
          simp [MapModel.keysOf]
      _ ≤ (MapModel.keysOf (l.map decodeEntry)).length := List.toFinset_card_le _
      _ = l.length := by simp [MapModel.keysOf]

/-- C10 witness: a two-record descriptor repeating one key imports to a
store holding the later value, with count one, strictly below the
descriptor count of two. -/
theorem import_last_record_wins_witness :
    (Custom.from_uplink_c
        { entries := some [⟨[1], 1, [2], 1⟩, ⟨[1], 1, [3], 1⟩], count := 2 }).toOption.map
      (fun c => (c.get [1], c.count)) = some (some [3], 1) := by
  obtain ⟨c, hok, hget, hcard, hle⟩ :=
    import_last_record_wins [⟨[1], 1, [2], 1⟩, ⟨[1], 1, [3], 1⟩] (by decide)
  have hok2 : Custom.from_uplink_c
      { entries := some [⟨[1], 1, [2], 1⟩, ⟨[1], 1, [3], 1⟩], count := 2 } = .ok c := hok
  rw [hok2]
  show some (c.get [1], c.count) = some (some [3], 1)
  rw [hget [1], hcard]
  decide

end UplinkRust
